import Mathlib

/-!
Verification of the ignition configuration-ingestion core: the verified
resource fetch pipeline (inline-data decode, decompression, digest
verification) and the cross-version schema translator.

The fetch pipeline implementation (package internal/resource) and the
generic translator engine (package config/translate) are exercised by the
sources only through their test and their registration site; those parts
are modelled from the spec, as marked on each definition.  The version
override functions (translateIgnition, Translate) are embedded from
src/config/v3_1_experimental/translate/translate.go, and the trailing
newline normalisation from the test in the same source file.
-/

namespace Ignition

/-- Bytes are modelled as natural numbers; every byte produced by the
decoders is below 256. -/
abbrev Bytes := List Nat

/-- Modelled from the spec: the error taxonomy of the fetch pipeline
(spec section 7).  The implementation of package internal/resource and the
shared error values are not under src; only the test TestAssertValid is. -/
inductive FetchErr where
  | decodeErr : FetchErr
  | invalidCompression : FetchErr
  | decompressionErr : FetchErr
  | hashMismatch (calculated expected : List Char) : FetchErr
deriving DecidableEq

/-- Lowercase hexadecimal digit for a value below 16. -/
def hexDig (n : Nat) : Char :=
  if n < 10 then Char.ofNat (48 + n) else Char.ofNat (87 + n)

/-- Modelled from the spec: lowercase hex encoding of a digest value
(spec section 4.3). -/
def hexEncode : Bytes → List Char
  | [] => []
  | b :: rest => hexDig (b / 16) :: hexDig (b % 16) :: hexEncode rest

/-- Value of a hexadecimal digit character, either case. -/
def hexVal (c : Char) : Option Nat :=
  if 48 ≤ c.toNat ∧ c.toNat ≤ 57 then some (c.toNat - 48)
  else if 97 ≤ c.toNat ∧ c.toNat ≤ 102 then some (c.toNat - 87)
  else if 65 ≤ c.toNat ∧ c.toNat ≤ 70 then some (c.toNat - 55)
  else none

/-- Modelled from the spec: percent-decoding of a literal inline-data
payload (spec section 4.1). -/
def percentDecode : List Char → Option Bytes
  | [] => some []
  | '%' :: h1 :: h2 :: rest => do
      let v1 ← hexVal h1
      let v2 ← hexVal h2
      let tail ← percentDecode rest
      some ((16 * v1 + v2) :: tail)
  | '%' :: _ => none
  | c :: rest => do
      let tail ← percentDecode rest
      some (c.toNat :: tail)

/-- Value of a base64 alphabet character. -/
def b64Val (c : Char) : Option Nat :=
  if 65 ≤ c.toNat ∧ c.toNat ≤ 90 then some (c.toNat - 65)
  else if 97 ≤ c.toNat ∧ c.toNat ≤ 122 then some (c.toNat - 71)
  else if 48 ≤ c.toNat ∧ c.toNat ≤ 57 then some (c.toNat + 4)
  else if c = '+' then some 62
  else if c = '/' then some 63
  else none

/-- Modelled from the spec: standard base64 decoding of an inline-data
payload (spec section 4.1), processing four-character groups with
optional trailing padding. -/
def b64Decode : List Char → Option Bytes
  | [] => some []
  | a :: b :: c :: d :: rest => do
      let va ← b64Val a
      let vb ← b64Val b
      if c = '=' then
        if d = '=' ∧ rest = [] then some [4 * va + vb / 16] else none
      else do
        let vc ← b64Val c
        if d = '=' then
          if rest = [] then some [4 * va + vb / 16, 16 * (vb % 16) + vc / 4]
          else none
        else do
          let vd ← b64Val d
          let tail ← b64Decode rest
          some ((4 * va + vb / 16) :: (16 * (vb % 16) + vc / 4) ::
                (64 * (vc % 4) + vd) :: tail)
  | _ => none

/-- Modelled from the spec: the opaque part of an inline-data URL splits
at the first comma; everything before it is the media-type/parameter
list, everything after is the payload (spec section 4.1). -/
def splitAtComma : List Char → Option (List Char × List Char)
  | [] => none
  | c :: rest =>
      if c = ',' then some ([], rest)
      else
        match splitAtComma rest with
        | some (ps, payload) => some (c :: ps, payload)
        | none => none

/-- Modelled from the spec: decoding of the opaque part of an inline-data
URL; a parameter list ending in ";base64" selects base64 payload
decoding, otherwise the payload is percent-decoded as literal text
(spec section 4.1). -/
def decodeDataURL (opq : List Char) : Except FetchErr Bytes :=
  match splitAtComma opq with
  | none => .error .decodeErr
  | some (params, payload) =>
      if (";base64".data).isSuffixOf params then
        match b64Decode payload with
        | some bs => .ok bs
        | none => .error .decodeErr
      else
        match percentDecode payload with
        | some bs => .ok bs
        | none => .error .decodeErr

/-- Modelled from the spec: the decompression stage (spec section 4.2).
An empty codec name is passthrough, "gzip" applies standard gzip
decompression, anything else is the invalid-compression error raised
before any decompression attempt.  The gzip codec itself is the Go
standard library, an external collaborator, abstracted as the
parameter gunzip. -/
def decompress (gunzip : Bytes → Option Bytes) (codec : String) (bs : Bytes) :
    Except FetchErr Bytes :=
  if codec = "" then .ok bs
  else if codec = "gzip" then
    match gunzip bs with
    | some out => .ok out
    | none => .error .decompressionErr
  else .error .invalidCompression

/-- Modelled from the spec: the digest verifier (spec section 4.3).  If
either the digest algorithm instance or the expected hex digest is
absent, verification is skipped; otherwise the computed digest is
hex-encoded and compared to the expectation, and a mismatch carries
both hex strings. -/
def verify (h : Option (Bytes → Bytes)) (expectedHex : Option (List Char))
    (bs : Bytes) : Except FetchErr Unit :=
  match h, expectedHex with
  | some hf, some exp =>
      let computed := hexEncode (hf bs)
      if computed = exp then .ok () else .error (.hashMismatch computed exp)
  | _, _ => .ok ()

/-- Modelled from the spec: FetchOptions (spec sections 3 and 6): an
optional digest algorithm instance, an optional expected digest as raw
bytes, and an optional compression codec name. -/
structure FetchOptions where
  compression : String := ""
  hash : Option (Bytes → Bytes) := none
  expectedSum : Option Bytes := none

/-- Modelled from the spec: the inline-data branch of the
scheme-dispatched fetcher (spec section 4.1): decode the URL payload,
reverse the declared compression, verify the digest, and only then
yield the bytes. -/
def fetchFromDataURL (gunzip : Bytes → Option Bytes) (opq : List Char)
    (opts : FetchOptions) : Except FetchErr Bytes := do
  let raw ← decodeDataURL opq
  let dec ← decompress gunzip opts.compression raw
  let _ ← verify opts.hash (opts.expectedSum.map hexEncode) dec
  pure dec

/-- Modelled from the spec: a fetch call appends the verified bytes to
the caller-owned sink on success and delivers nothing on failure
(spec section 3, Sink invariant). -/
def fetchToSink (gunzip : Bytes → Option Bytes) (opq : List Char)
    (opts : FetchOptions) (sink : Bytes) : Except FetchErr Unit × Bytes :=
  match fetchFromDataURL gunzip opq opts with
  | .ok bs => (.ok (), sink ++ bs)
  | .error e => (.error e, sink)

/-- From the test in src: the test compares the sink content after
strings.TrimSuffix(dest.String(), "\n"), removing one trailing newline. -/
def trimTrailingNewline (bs : Bytes) : Bytes :=
  if bs.getLast? = some 10 then bs.dropLast else bs

/-- The bytes of an ASCII string. -/
def strBytes (s : String) : Bytes := s.data.map Char.toNat

instance {ε α : Type} [DecidableEq ε] [DecidableEq α] : DecidableEq (Except ε α) :=
  fun a b =>
    match a, b with
    | .ok x, .ok y =>
        if h : x = y then .isTrue (by rw [h])
        else .isFalse (fun hc => h (by cases hc; rfl))
    | .error x, .error y =>
        if h : x = y then .isTrue (by rw [h])
        else .isFalse (fun hc => h (by cases hc; rfl))
    | .ok _, .error _ => .isFalse (fun hc => Except.noConfusion hc)
    | .error _, .ok _ => .isFalse (fun hc => Except.noConfusion hc)

/-- Modelled from the spec: a value of a configuration schema type graph
(spec sections 3 and 4.4): either a scalar field or a named composite
(struct) with an ordered field list.  The schema type packages
(config/v3_0/types, config/v3_1_experimental/types) are not under src;
the type graph is abstracted by tagging each composite with its type
name, which is what the engine dispatches rules on. -/
inductive GoVal where
  | prim (s : String) : GoVal
  | strukt (tname : String) (fields : List (String × GoVal)) : GoVal

mutual

/-- Number of translator call steps needed for a rule-free structural pass
over a value. -/
def gsize : GoVal → Nat
  | .prim _ => 1
  | .strukt _ fields => 1 + fsize fields

/-- Number of translator call steps needed for a rule-free structural pass
over a field list. -/
def fsize : List (String × GoVal) → Nat
  | [] => 1
  | (_, v) :: rest => 1 + gsize v + fsize rest

end

/-- Modelled from the spec: the destination schema's canonical version
string, types.MaxVersion.String() of v3_1_experimental (package types is
not under src). -/
def MaxVersionString : String := "3.1.0-experimental"

/-- Replace the first field with the given name, appending the field when
absent: the structural analogue of a Go struct field assignment. -/
def setField (name : String) (val : GoVal) :
    List (String × GoVal) → List (String × GoVal)
  | [] => [(name, val)]
  | (n, v) :: rest =>
      if n = name then (n, val) :: rest else (n, v) :: setField name val rest

/-- First field with the given name. -/
def getField (name : String) : List (String × GoVal) → Option GoVal
  | [] => none
  | (n, v) :: rest => if n = name then some v else getField name rest

/-- Type name on which the engine dispatches registered rules. -/
def typeNameOf : GoVal → String
  | .prim _ => ""
  | .strukt t _ => t

/-- From src translateIgnition: the final assignment
ret.Version = types.MaxVersion.String(), overwriting the version field
of the translated Ignition section. -/
def stampVersion : GoVal → GoVal
  | .prim s => .prim s
  | .strukt t fields => .strukt t (setField "version" (.prim MaxVersionString) fields)

/-- The version field of a document section. -/
def getVersion : GoVal → Option GoVal
  | .prim _ => none
  | .strukt _ fields => getField "version" fields

mutual

/-- Modelled from the spec: the generic structural translator engine (spec
section 4.4; package config/translate is not under src), specialised to
the one rule set that src registers: hasRule records whether the
translateIgnition override from src translate.go is registered for the
type name "Ignition".  fuel counts call steps, modelling the Go call
stack; none models a run that does not terminate within the fuel.  The
override branch embeds src translateIgnition: it translates the section
through a fresh translator with no registered rules and then stamps the
version field.  The second result component counts override
invocations. -/
def translateVal : Nat → Bool → GoVal → Option (GoVal × Nat)
  | 0, _, _ => none
  | Nat.succ fuel, hasRule, v =>
      if hasRule = true ∧ typeNameOf v = "Ignition" then
        match translateVal fuel false v with
        | some (ret, n) => some (stampVersion ret, n + 1)
        | none => none
      else
        match v with
        | .prim s => some (.prim s, 0)
        | .strukt t fields =>
            match translateFields fuel hasRule fields with
            | some (fields', n) => some (.strukt t fields', n)
            | none => none

/-- Field-by-field structural recursion of the engine (spec section 4.4
step 2): same-named fields are translated in order. -/
def translateFields : Nat → Bool → List (String × GoVal) →
    Option (List (String × GoVal) × Nat)
  | 0, _, _ => none
  | Nat.succ _, _, [] => some ([], 0)
  | Nat.succ fuel, hasRule, (n, v) :: rest =>
      match translateVal fuel hasRule v, translateFields fuel hasRule rest with
      | some (v', c1), some (rest', c2) => some ((n, v') :: rest', c1 + c2)
      | _, _ => none

end

mutual

/-- Modelled from the spec: the re-entrancy hazard the spec warns against
(spec sections 4.4 and 9): the same engine, but with the override
re-entering the translator instance that holds it, so the nested
translation keeps the rule registered. -/
def translateValBad : Nat → Bool → GoVal → Option (GoVal × Nat)
  | 0, _, _ => none
  | Nat.succ fuel, hasRule, v =>
      if hasRule = true ∧ typeNameOf v = "Ignition" then
        match translateValBad fuel true v with
        | some (ret, n) => some (stampVersion ret, n + 1)
        | none => none
      else
        match v with
        | .prim s => some (.prim s, 0)
        | .strukt t fields =>
            match translateFieldsBad fuel hasRule fields with
            | some (fields', n) => some (.strukt t fields', n)
            | none => none

/-- Field recursion of the re-entrant variant. -/
def translateFieldsBad : Nat → Bool → List (String × GoVal) →
    Option (List (String × GoVal) × Nat)
  | 0, _, _ => none
  | Nat.succ _, _, [] => some ([], 0)
  | Nat.succ fuel, hasRule, (n, v) :: rest =>
      match translateValBad fuel hasRule v, translateFieldsBad fuel hasRule rest with
      | some (v', c1), some (rest', c2) => some ((n, v') :: rest', c1 + c2)
      | _, _ => none

end

mutual

/-- Number of maximal Ignition-typed nodes of a value: the nodes at which
the registered override fires during a translation run. -/
def ignCount : GoVal → Nat
  | .prim _ => 0
  | .strukt t fields => if t = "Ignition" then 1 else fIgnCount fields

/-- Sum of ignCount over a field list. -/
def fIgnCount : List (String × GoVal) → Nat
  | [] => 0
  | (_, v) :: rest => ignCount v + fIgnCount rest

end

/-- From src translate.go: Translate constructs a fresh translator,
registers the translateIgnition override, and runs it on the old
document; the fuel 2 * gsize old is sufficient for the run to
complete, as proved below. -/
def Translate (old : GoVal) : Option GoVal :=
  (translateVal (2 * gsize old) true old).map Prod.fst

/-! Helper lemmas shared by the claim theorems. -/

theorem except_bind_ok {ε α β : Type} (x : α) (f : α → Except ε β) :
    (Except.ok x >>= f : Except ε β) = f x := rfl

theorem except_bind_error {ε α β : Type} (e : ε) (f : α → Except ε β) :
    ((Except.error e : Except ε α) >>= f) = Except.error e := rfl

theorem hexDig_inj_fin : ∀ a b : Fin 16, hexDig a.val = hexDig b.val → a = b := by
  decide

theorem hexDig_inj {a b : Nat} (ha : a < 16) (hb : b < 16)
    (h : hexDig a = hexDig b) : a = b :=
  congrArg Fin.val (hexDig_inj_fin ⟨a, ha⟩ ⟨b, hb⟩ h)

theorem hexEncode_inj : ∀ (bs cs : Bytes), (∀ x ∈ bs, x < 256) →
    (∀ x ∈ cs, x < 256) → hexEncode bs = hexEncode cs → bs = cs
  | [], [], _, _, _ => rfl
  | [], _ :: _, _, _, h => by simp [hexEncode] at h
  | _ :: _, [], _, _, h => by simp [hexEncode] at h
  | b :: bs, c :: cs, hb, hc, h => by
      simp only [hexEncode, List.cons.injEq] at h
      obtain ⟨h1, h2, h3⟩ := h
      have hb1 : b < 256 := hb b (List.mem_cons_self _ _)
      have hc1 : c < 256 := hc c (List.mem_cons_self _ _)
      have e1 : b / 16 = c / 16 := hexDig_inj (by omega) (by omega) h1
      have e2 : b % 16 = c % 16 := hexDig_inj (by omega) (by omega) h2
      have tail := hexEncode_inj bs cs (fun x hx => hb x (List.mem_cons_of_mem _ hx))
        (fun x hx => hc x (List.mem_cons_of_mem _ hx)) h3
      have : b = c := by omega
      rw [this, tail]

theorem except_pure {ε α : Type} (x : α) : (pure x : Except ε α) = Except.ok x := rfl

theorem fetchFromDataURL_ok_iff (gunzip : Bytes → Option Bytes) (opq : List Char)
    (opts : FetchOptions) (out : Bytes) :
    fetchFromDataURL gunzip opq opts = .ok out ↔
      ∃ raw, decodeDataURL opq = .ok raw ∧
        decompress gunzip opts.compression raw = .ok out ∧
        verify opts.hash (opts.expectedSum.map hexEncode) out = .ok () := by
  constructor
  · intro hok
    unfold fetchFromDataURL at hok
    cases hraw : decodeDataURL opq with
    | error e => rw [hraw, except_bind_error] at hok; exact Except.noConfusion hok
    | ok raw =>
        rw [hraw, except_bind_ok] at hok
        cases hdec : decompress gunzip opts.compression raw with
        | error e => rw [hdec, except_bind_error] at hok; exact Except.noConfusion hok
        | ok dec =>
            rw [hdec, except_bind_ok] at hok
            cases hver : verify opts.hash (opts.expectedSum.map hexEncode) dec with
            | error e =>
                rw [hver, except_bind_error] at hok; exact Except.noConfusion hok
            | ok u =>
                cases u
                rw [hver, except_bind_ok, except_pure] at hok
                cases hok
                exact ⟨raw, rfl, hdec, hver⟩
  · rintro ⟨raw, h1, h2, h3⟩
    unfold fetchFromDataURL
    rw [h1, except_bind_ok, h2, except_bind_ok, h3, except_bind_ok]
    rfl

theorem splitAtComma_append (params payload : List Char) (h : ',' ∉ params) :
    splitAtComma (params ++ ',' :: payload) = some (params, payload) := by
  induction params with
  | nil => simp [splitAtComma]
  | cons c rest ih =>
      have hc : ¬ c = ',' := fun e => h (List.mem_cons.2 (Or.inl e.symm))
      have hrest : ',' ∉ rest := fun m => h (List.mem_cons_of_mem _ m)
      simp [splitAtComma, hc, ih hrest]

theorem gsize_prim (s : String) : gsize (.prim s) = 1 := by simp [gsize]

theorem gsize_strukt (t : String) (fields : List (String × GoVal)) :
    gsize (.strukt t fields) = 1 + fsize fields := by simp [gsize]

theorem fsize_nil : fsize ([] : List (String × GoVal)) = 1 := by simp [fsize]

theorem fsize_cons (n : String) (v : GoVal) (rest : List (String × GoVal)) :
    fsize ((n, v) :: rest) = 1 + gsize v + fsize rest := by simp [fsize]

theorem gsize_pos (v : GoVal) : 0 < gsize v := by
  cases v with
  | prim s => rw [gsize_prim]; omega
  | strukt t fields => rw [gsize_strukt]; omega

theorem fsize_pos (l : List (String × GoVal)) : 0 < fsize l := by
  cases l with
  | nil => rw [fsize_nil]; omega
  | cons p rest => obtain ⟨n, v⟩ := p; rw [fsize_cons]; omega

theorem getField_setField (name : String) (val : GoVal) :
    ∀ l, getField name (setField name val l) = some val
  | [] => by simp [setField, getField]
  | (n, v) :: rest => by
      by_cases h : n = name
      · simp [setField, getField, h]
      · simp [setField, getField, h, getField_setField name val rest]

theorem notIgnition_prim : typeNameOf (GoVal.prim "x") ≠ "Ignition" := by decide

theorem translate_fuel_sufficient : ∀ fuel : Nat,
    (∀ v, gsize v ≤ fuel → (translateVal fuel false v).isSome = true) ∧
    (∀ l, fsize l ≤ fuel → (translateFields fuel false l).isSome = true) ∧
    (∀ v, 2 * gsize v ≤ fuel → (translateVal fuel true v).isSome = true) ∧
    (∀ l, 2 * fsize l ≤ fuel → (translateFields fuel true l).isSome = true) := by
  intro fuel
  induction fuel with
  | zero =>
      refine ⟨fun v hv => ?_, fun l hl => ?_, fun v hv => ?_, fun l hl => ?_⟩
      · exact absurd hv (by have := gsize_pos v; omega)
      · exact absurd hl (by have := fsize_pos l; omega)
      · exact absurd hv (by have := gsize_pos v; omega)
      · exact absurd hl (by have := fsize_pos l; omega)
  | succ f ih =>
      obtain ⟨ih1, ih2, ih3, ih4⟩ := ih
      have hstr : ("" : String) ≠ "Ignition" := by decide
      refine ⟨fun v hv => ?_, fun l hl => ?_, fun v hv => ?_, fun l hl => ?_⟩
      · cases v with
        | prim s => simp [translateVal]
        | strukt t fields =>
            have hf : fsize fields ≤ f := by rw [gsize_strukt] at hv; omega
            obtain ⟨⟨fs, n⟩, hfs⟩ := Option.isSome_iff_exists.1 (ih2 fields hf)
            simp [translateVal, hfs]
      · cases l with
        | nil => simp [translateFields]
        | cons p rest =>
            obtain ⟨nm, w⟩ := p
            rw [fsize_cons] at hl
            obtain ⟨⟨w', c1⟩, hw⟩ :=
              Option.isSome_iff_exists.1 (ih1 w (by omega))
            obtain ⟨⟨rest', c2⟩, hrest⟩ :=
              Option.isSome_iff_exists.1 (ih2 rest (by omega))
            simp [translateFields, hw, hrest]
      · cases v with
        | prim s => simp [translateVal, typeNameOf, hstr]
        | strukt t fields =>
            by_cases ht : t = "Ignition"
            · subst ht
              have h1 : gsize (GoVal.strukt "Ignition" fields) ≤ f := by
                have := gsize_pos (GoVal.strukt "Ignition" fields); omega
              obtain ⟨⟨ret, n⟩, hret⟩ := Option.isSome_iff_exists.1 (ih1 _ h1)
              simp [translateVal, typeNameOf, hret]
            · have h1 : 2 * fsize fields ≤ f := by rw [gsize_strukt] at hv; omega
              obtain ⟨⟨fs, n⟩, hfs⟩ := Option.isSome_iff_exists.1 (ih4 fields h1)
              simp [translateVal, typeNameOf, ht, hfs]
      · cases l with
        | nil => simp [translateFields]
        | cons p rest =>
            obtain ⟨nm, w⟩ := p
            rw [fsize_cons] at hl
            obtain ⟨⟨w', c1⟩, hw⟩ :=
              Option.isSome_iff_exists.1 (ih3 w (by omega))
            obtain ⟨⟨rest', c2⟩, hrest⟩ :=
              Option.isSome_iff_exists.1 (ih4 rest (by omega))
            simp [translateFields, hw, hrest]

theorem translate_count : ∀ fuel : Nat,
    (∀ v r n, translateVal fuel false v = some (r, n) → n = 0) ∧
    (∀ l l' n, translateFields fuel false l = some (l', n) → n = 0) ∧
    (∀ v r n, translateVal fuel true v = some (r, n) → n = ignCount v) ∧
    (∀ l l' n, translateFields fuel true l = some (l', n) → n = fIgnCount l) := by
  intro fuel
  induction fuel with
  | zero =>
      refine ⟨fun v r n h => ?_, fun l l' n h => ?_,
              fun v r n h => ?_, fun l l' n h => ?_⟩
      · simp [translateVal] at h
      · simp [translateFields] at h
      · simp [translateVal] at h
      · simp [translateFields] at h
  | succ f ih =>
      obtain ⟨ih1, ih2, ih3, ih4⟩ := ih
      have hstr : ("" : String) ≠ "Ignition" := by decide
      refine ⟨fun v r n h => ?_, fun l l' n h => ?_,
              fun v r n h => ?_, fun l l' n h => ?_⟩
      · cases v with
        | prim s => simp [translateVal] at h; omega
        | strukt t fields =>
            cases hfs : translateFields f false fields with
            | none => simp [translateVal, hfs] at h
            | some p =>
                obtain ⟨fs, c⟩ := p
                simp [translateVal, hfs] at h
                have := ih2 fields fs c hfs
                omega
      · cases l with
        | nil => simp [translateFields] at h; omega
        | cons p rest =>
            obtain ⟨nm, w⟩ := p
            cases hw : translateVal f false w with
            | none => simp [translateFields, hw] at h
            | some q =>
                obtain ⟨w', c1⟩ := q
                cases hrest : translateFields f false rest with
                | none => simp [translateFields, hw, hrest] at h
                | some q2 =>
                    obtain ⟨rest', c2⟩ := q2
                    simp [translateFields, hw, hrest] at h
                    have e1 := ih1 w w' c1 hw
                    have e2 := ih2 rest rest' c2 hrest
                    omega
      · cases v with
        | prim s => simp [translateVal, typeNameOf, hstr, ignCount] at h ⊢; omega
        | strukt t fields =>
            by_cases ht : t = "Ignition"
            · subst ht
              cases hv : translateVal f false (GoVal.strukt "Ignition" fields) with
              | none => simp [translateVal, typeNameOf, hv] at h
              | some q =>
                  obtain ⟨ret, c⟩ := q
                  simp [translateVal, typeNameOf, hv] at h
                  have := ih1 _ ret c hv
                  simp [ignCount]
                  omega
            · cases hfs : translateFields f true fields with
              | none => simp [translateVal, typeNameOf, ht, hfs] at h
              | some p =>
                  obtain ⟨fs, c⟩ := p
                  simp [translateVal, typeNameOf, ht, hfs] at h
                  have := ih4 fields fs c hfs
                  simp [ignCount, ht]
                  omega
      · cases l with
        | nil => simp [translateFields, fIgnCount] at h ⊢; omega
        | cons p rest =>
            obtain ⟨nm, w⟩ := p
            cases hw : translateVal f true w with
            | none => simp [translateFields, hw] at h
            | some q =>
                obtain ⟨w', c1⟩ := q
                cases hrest : translateFields f true rest with
                | none => simp [translateFields, hw, hrest] at h
                | some q2 =>
                    obtain ⟨rest', c2⟩ := q2
                    simp [translateFields, hw, hrest] at h
                    have e1 := ih3 w w' c1 hw
                    have e2 := ih4 rest rest' c2 hrest
                    simp [fIgnCount]
                    omega

theorem translateFields_getField : ∀ (fuel : Nat) (b : Bool)
    (l l' : List (String × GoVal)) (n : Nat),
    translateFields fuel b l = some (l', n) →
    ∀ name v, getField name l = some v →
      ∃ v', getField name l' = some v' ∧ ∃ g c, translateVal g b v = some (v', c) := by
  intro fuel
  induction fuel with
  | zero => intro b l l' n h; simp [translateFields] at h
  | succ f ih =>
      intro b l l' n h name v hget
      cases l with
      | nil => simp [getField] at hget
      | cons p rest =>
          obtain ⟨nm, w⟩ := p
          cases hw : translateVal f b w with
          | none => simp [translateFields, hw] at h
          | some q =>
              obtain ⟨w', c1⟩ := q
              cases hrest : translateFields f b rest with
              | none => simp [translateFields, hw, hrest] at h
              | some q2 =>
                  obtain ⟨rest', c2⟩ := q2
                  simp [translateFields, hw, hrest] at h
                  obtain ⟨hl', hn⟩ := h
                  by_cases hnm : nm = name
                  · simp [getField, hnm] at hget
                    refine ⟨w', ?_, f, c1, ?_⟩
                    · rw [← hl']; simp [getField, hnm]
                    · rw [← hget]; exact hw
                  · simp [getField, hnm] at hget
                    obtain ⟨v', hv', g, c, hvw⟩ := ih b rest rest' c2 hrest name v hget
                    refine ⟨v', ?_, g, c, hvw⟩
                    rw [← hl']; simp [getField, hnm, hv']

theorem translateVal_false_strukt (fuel : Nat) (t : String)
    (fields : List (String × GoVal)) (r : GoVal) (n : Nat)
    (h : translateVal fuel false (.strukt t fields) = some (r, n)) :
    ∃ fields', r = .strukt t fields' := by
  cases fuel with
  | zero => simp [translateVal] at h
  | succ f =>
      cases hfs : translateFields f false fields with
      | none => simp [translateVal, hfs] at h
      | some p =>
          obtain ⟨fs, c⟩ := p
          simp [translateVal, hfs] at h
          exact ⟨fs, h.1.symm⟩

theorem translateVal_true_ignition (fuel : Nat) (v r : GoVal) (n : Nat)
    (htype : typeNameOf v = "Ignition")
    (h : translateVal fuel true v = some (r, n)) :
    getVersion r = some (.prim MaxVersionString) := by
  cases fuel with
  | zero => simp [translateVal] at h
  | succ f =>
      cases hv : translateVal f false v with
      | none => simp [translateVal, htype, hv] at h
      | some q =>
          obtain ⟨ret, c⟩ := q
          simp [translateVal, htype, hv] at h
          obtain ⟨hr, _⟩ := h
          cases v with
          | prim s =>
              simp only [typeNameOf] at htype
              exact absurd htype (by decide)
          | strukt t fields =>
              obtain ⟨fields', hret⟩ := translateVal_false_strukt f t fields ret c hv
              subst hret
              rw [← hr]
              simp [stampVersion, getVersion, getField_setField]

theorem translateValBad_ignition_none :
    ∀ (fuel : Nat) (v : GoVal), typeNameOf v = "Ignition" →
      translateValBad fuel true v = none := by
  intro fuel
  induction fuel with
  | zero => intro v _; simp [translateValBad]
  | succ f ih =>
      intro v ht
      simp [translateValBad, ht, ih v ht]

/-! Claim theorems. -/

/-- C1 counterexample: the claim quantifies over every digest algorithm,
but a digest algorithm with a collision on the two payloads makes
verification of b against the hex digest of b' ≠ b succeed: with the
constant algorithm, verifying [] against the hex digest of [0] is ok. -/
theorem verify_digest_cex :
    verify (some (fun _ => [0])) (some (hexEncode ((fun (_ : Bytes) => ([0] : Bytes)) [0]))) []
      = .ok () ∧ ([0] : Bytes) ≠ ([] : Bytes) := by
  exact ⟨rfl, by decide⟩

/-- C1 (amended): for every digest algorithm h whose outputs are byte
sequences, verifying b against the hex encoding of h(b) succeeds, and
verifying b against the hex digest of any payload b' with
h(b') ≠ h(b) fails with a hash-mismatch error whose Calculated field is
the lowercase hex encoding of h(b) and whose Expected field is the
supplied expected hex string. -/
theorem verify_digest (h : Bytes → Bytes) (b b' : Bytes)
    (hb : ∀ x ∈ h b, x < 256) (hb' : ∀ x ∈ h b', x < 256)
    (hne : h b' ≠ h b) :
    verify (some h) (some (hexEncode (h b))) b = .ok () ∧
    verify (some h) (some (hexEncode (h b'))) b =
      .error (.hashMismatch (hexEncode (h b)) (hexEncode (h b'))) := by
  have hneq : hexEncode (h b) ≠ hexEncode (h b') :=
    fun he => hne ((hexEncode_inj (h b) (h b') hb hb' he).symm)
  exact ⟨by simp [verify], by simp [verify, hneq]⟩

/-- C1 witness: the amended theorem applied to the length digest, the
payload [] and the different payload [7]. -/
theorem verify_digest_witness :
    verify (some (fun bs => [bs.length % 256]))
        (some (hexEncode ((fun (bs : Bytes) => [bs.length % 256]) []))) [] = .ok () ∧
    verify (some (fun bs => [bs.length % 256]))
        (some (hexEncode ((fun (bs : Bytes) => [bs.length % 256]) [7]))) [] =
      .error (.hashMismatch (hexEncode ((fun (bs : Bytes) => [bs.length % 256]) []))
        (hexEncode ((fun (bs : Bytes) => [bs.length % 256]) [7]))) :=
  verify_digest (fun bs => [bs.length % 256]) [] [7] (by decide) (by decide) (by decide)

/-- C2: for every fetch call, bytes are delivered to the caller's sink
iff inline-data retrieval, decompression, and digest verification all
succeed, and exactly the verified bytes are appended; any failure of the
pipeline leaves the sink unchanged (zero bytes delivered) together with
the error. -/
theorem fetch_sink_iff (gunzip : Bytes → Option Bytes) (opq : List Char)
    (opts : FetchOptions) (sink : Bytes) :
    ((fetchToSink gunzip opq opts sink).1 = .ok () ↔
      ∃ raw dec, decodeDataURL opq = .ok raw ∧
        decompress gunzip opts.compression raw = .ok dec ∧
        verify opts.hash (opts.expectedSum.map hexEncode) dec = .ok () ∧
        (fetchToSink gunzip opq opts sink).2 = sink ++ dec) ∧
    (∀ e, (fetchToSink gunzip opq opts sink).1 = .error e →
      (fetchToSink gunzip opq opts sink).2 = sink) := by
  unfold fetchToSink
  cases hf : fetchFromDataURL gunzip opq opts with
  | ok bs =>
      obtain ⟨raw, h1, h2, h3⟩ := (fetchFromDataURL_ok_iff gunzip opq opts bs).1 hf
      refine ⟨⟨fun _ => ⟨raw, bs, h1, h2, h3, rfl⟩, fun _ => rfl⟩, ?_⟩
      intro e he
      exact Except.noConfusion he
  | error e =>
      refine ⟨⟨fun hc => Except.noConfusion hc, ?_⟩, fun _ _ => rfl⟩
      rintro ⟨raw, dec, h1, h2, h3, _⟩
      have hok : fetchFromDataURL gunzip opq opts = .ok dec :=
        (fetchFromDataURL_ok_iff gunzip opq opts dec).2 ⟨raw, h1, h2, h3⟩
      rw [hf] at hok
      exact Except.noConfusion hok

/-- C3: for every payload and every gzip implementation, Decompress with
a non-empty codec name other than "gzip" fails with the dedicated
invalid-compression error, regardless of whether the bytes would
decompress, and a fetch whose FetchOptions carry such a compression name
fails the same way whenever the data URL itself decodes. -/
theorem decompress_invalid_codec (gunzip : Bytes → Option Bytes) (codec : String)
    (bs : Bytes) (opts : FetchOptions) (opq : List Char) (raw : Bytes)
    (h1 : codec ≠ "") (h2 : codec ≠ "gzip") (hc : opts.compression = codec)
    (hdec : decodeDataURL opq = .ok raw) :
    decompress gunzip codec bs = .error .invalidCompression ∧
    fetchFromDataURL gunzip opq opts = .error .invalidCompression := by
  have hd : ∀ b, decompress gunzip codec b = .error .invalidCompression := by
    intro b; unfold decompress; rw [if_neg h1, if_neg h2]
  refine ⟨hd bs, ?_⟩
  unfold fetchFromDataURL
  rw [hdec, except_bind_ok, hc, hd raw, except_bind_error]

/-- C3 witness: the codec "unknown" on the inline payload ",a". -/
theorem decompress_invalid_codec_witness :
    decompress (fun _ => none) "unknown" [0] = .error .invalidCompression ∧
    fetchFromDataURL (fun _ => none) (",a".data) { compression := "unknown" } =
      .error .invalidCompression :=
  decompress_invalid_codec (fun _ => none) "unknown" [0]
    { compression := "unknown" } (",a".data) (strBytes "a")
    (by decide) (by decide) rfl (by decide)

/-- C6: the opaque part of an inline-data URL splits at the first comma
into a parameter list and a payload; a parameter list ending in
";base64" selects base64 decoding of the payload and any other selects
percent-decoding; and the concrete payload
",%23%20This%20file%0A%0ASELINUX%3Dpermissive" decodes to the bytes of
"# This file\n\nSELINUX=permissive". -/
theorem dataURL_decode (params payload : List Char) (hnc : ',' ∉ params) :
    splitAtComma (params ++ ',' :: payload) = some (params, payload) ∧
    ((";base64".data).isSuffixOf params = true →
      decodeDataURL (params ++ ',' :: payload) =
        (match b64Decode payload with
         | some bs => .ok bs
         | none => .error .decodeErr)) ∧
    ((";base64".data).isSuffixOf params = false →
      decodeDataURL (params ++ ',' :: payload) =
        (match percentDecode payload with
         | some bs => .ok bs
         | none => .error .decodeErr)) ∧
    decodeDataURL (",%23%20This%20file%0A%0ASELINUX%3Dpermissive".data) =
      .ok (strBytes "# This file\n\nSELINUX=permissive") := by
  refine ⟨splitAtComma_append params payload hnc, ?_, ?_, by decide⟩
  · intro hsuf
    unfold decodeDataURL
    rw [splitAtComma_append params payload hnc]
    simp [hsuf]
  · intro hsuf
    unfold decodeDataURL
    rw [splitAtComma_append params payload hnc]
    simp [hsuf]

/-- C6 witness: the split applied to the parameter list ";base64" and the
payload "aGk=". -/
theorem dataURL_decode_witness :
    splitAtComma ((";base64".data) ++ ',' :: ("aGk=".data)) =
      some ((";base64".data), ("aGk=".data)) :=
  (dataURL_decode (";base64".data) ("aGk=".data) (by decide)).1

/-- C7: for every payload b, Decompress applied with codec name "gzip" to
the gzip compression of b returns b, given the gzip round-trip contract
of the standard library codec; and fetching an inline-data URL holding
the compressed bytes with a correct expected digest of the decompressed
content succeeds with exactly b. -/
theorem gzip_roundtrip (gzipC : Bytes → Bytes) (gunzip : Bytes → Option Bytes)
    (hrt : ∀ b, gunzip (gzipC b) = some b) (b : Bytes) (hash : Bytes → Bytes)
    (opq : List Char) (hdec : decodeDataURL opq = .ok (gzipC b)) :
    decompress gunzip "gzip" (gzipC b) = .ok b ∧
    fetchFromDataURL gunzip opq
      { compression := "gzip", hash := some hash, expectedSum := some (hash b) } =
      .ok b := by
  have hdd : decompress gunzip "gzip" (gzipC b) = .ok b := by
    unfold decompress
    rw [if_neg (by decide), if_pos rfl, hrt b]
  refine ⟨hdd, ?_⟩
  exact (fetchFromDataURL_ok_iff _ _ _ _).2 ⟨gzipC b, hdec, hdd, by simp [verify]⟩

/-- C7 witness: the round trip instantiated with the identity codec pair
on the payload "hi", fetched from the URL ",hi". -/
theorem gzip_roundtrip_witness :
    decompress Option.some "gzip" ((fun (bs : Bytes) => bs) (strBytes "hi")) =
      .ok (strBytes "hi") :=
  (gzip_roundtrip (fun bs => bs) Option.some (fun _ => rfl) (strBytes "hi")
    (fun bs => bs) (",hi".data) (by decide)).1

/-- C8: if either the digest algorithm instance or the expected digest is
absent from FetchOptions, digest verification succeeds as a no-op on
every payload. -/
theorem verify_skip (opts : FetchOptions) (bs : Bytes)
    (habsent : opts.hash = none ∨ opts.expectedSum = none) :
    verify opts.hash (opts.expectedSum.map hexEncode) bs = .ok () := by
  cases hh : opts.hash with
  | none => cases he : opts.expectedSum with
    | none => rfl
    | some s => rfl
  | some hf => cases he : opts.expectedSum with
    | none => rfl
    | some s =>
        rcases habsent with h | h
        · rw [hh] at h; exact Option.noConfusion h
        · rw [he] at h; exact Option.noConfusion h

/-- C8 witness: default FetchOptions carry no digest instance, so
verification of [0] is a no-op. -/
theorem verify_skip_witness :
    verify (FetchOptions.hash {}) ((FetchOptions.expectedSum {}).map hexEncode) [0] =
      .ok () :=
  verify_skip {} [0] (Or.inl rfl)

/-- C9 counterexample: the base64 inline payload decodes to the bytes of
"# This file\n\nSELINUX=permissive" followed by a trailing newline, so
what reaches the sink differs from the percent-encoded payload's
decoding by that newline; the two fetches deliver unequal contents. -/
theorem base64_newline_cex :
    decodeDataURL (";base64,IyBUaGlzIGZpbGUKClNFTElOVVg9cGVybWlzc2l2ZQo=".data) =
      .ok (strBytes "# This file\n\nSELINUX=permissive" ++ [10]) ∧
    fetchToSink (fun _ => none)
        (";base64,IyBUaGlzIGZpbGUKClNFTElOVVg9cGVybWlzc2l2ZQo=".data) {} [] =
      (.ok (), strBytes "# This file\n\nSELINUX=permissive" ++ [10]) ∧
    strBytes "# This file\n\nSELINUX=permissive" ++ [10] ≠
      strBytes "# This file\n\nSELINUX=permissive" := by
  exact ⟨by decide, by decide, by decide⟩

/-- C9 (amended): the base64 inline payload
";base64,IyBUaGlzIGZpbGUKClNFTElOVVg9cGVybWlzc2l2ZQo=" decodes to the
same content as the percent-encoded payload
",%23%20This%20file%0A%0ASELINUX%3Dpermissive" plus one trailing newline
byte delivered to the sink; the source test strips that trailing newline
before comparing, after which the contents agree. -/
theorem base64_newline_amended :
    decodeDataURL (";base64,IyBUaGlzIGZpbGUKClNFTElOVVg9cGVybWlzc2l2ZQo=".data) =
      .ok (strBytes "# This file\n\nSELINUX=permissive" ++ [10]) ∧
    decodeDataURL (",%23%20This%20file%0A%0ASELINUX%3Dpermissive".data) =
      .ok (strBytes "# This file\n\nSELINUX=permissive") ∧
    trimTrailingNewline (strBytes "# This file\n\nSELINUX=permissive" ++ [10]) =
      strBytes "# This file\n\nSELINUX=permissive" := by
  exact ⟨by decide, by decide, by decide⟩

/-- C4: for every source config document, Translate completes and the
translated document's nested Ignition section carries exactly the
destination schema's canonical version string, regardless of the source
section's version field: the translateIgnition override stamps it
unconditionally over whatever the structural copy produced. -/
theorem translate_version_stamped (fields : List (String × GoVal)) (ign : GoVal)
    (hign : getField "ignition" fields = some ign)
    (htype : typeNameOf ign = "Ignition") :
    ∃ ret fields' ignR,
      Translate (.strukt "Config" fields) = some ret ∧
      ret = .strukt "Config" fields' ∧
      getField "ignition" fields' = some ignR ∧
      getVersion ignR = some (.prim MaxVersionString) := by
  have hs := (translate_fuel_sufficient
      (2 * gsize (GoVal.strukt "Config" fields))).2.2.1
      (GoVal.strukt "Config" fields) (le_refl _)
  obtain ⟨⟨r, n⟩, hr⟩ := Option.isSome_iff_exists.1 hs
  obtain ⟨f, hf⟩ : ∃ f, 2 * gsize (GoVal.strukt "Config" fields) = f + 1 := by
    have := gsize_pos (GoVal.strukt "Config" fields)
    exact ⟨2 * gsize (GoVal.strukt "Config" fields) - 1, by omega⟩
  have hcfg : ("Config" : String) ≠ "Ignition" := by decide
  have hr1 : translateVal (f + 1) true (GoVal.strukt "Config" fields) =
      some (r, n) := by rw [← hf]; exact hr
  cases hfs : translateFields f true fields with
  | none => simp [translateVal, typeNameOf, hcfg, hfs] at hr1
  | some p =>
      obtain ⟨fs, c⟩ := p
      have hr2 := hr1
      simp [translateVal, typeNameOf, hcfg, hfs] at hr2
      obtain ⟨hrr, hnn⟩ := hr2
      obtain ⟨ignR, hlook, g, c', hval⟩ :=
        translateFields_getField f true fields fs c hfs "ignition" ign hign
      exact ⟨r, fs, ignR, by simp [Translate, hr], hrr.symm, hlook,
        translateVal_true_ignition g ign ignR c' htype hval⟩

/-- C4 witness: a config whose ignition section carries the source
version string "3.0.0". -/
theorem translate_version_stamped_witness :
    ∃ ret fields' ignR,
      Translate (.strukt "Config"
          [("ignition", .strukt "Ignition" [("version", .prim "3.0.0")])]) =
        some ret ∧
      ret = .strukt "Config" fields' ∧
      getField "ignition" fields' = some ignR ∧
      getVersion ignR = some (.prim MaxVersionString) :=
  translate_version_stamped
    [("ignition", .strukt "Ignition" [("version", .prim "3.0.0")])]
    (.strukt "Ignition" [("version", .prim "3.0.0")]) rfl rfl

/-- C5: for every config document containing exactly one nested Ignition
section, translation with the registered override terminates within the
stated fuel bound and applies the version-stamp override exactly once;
by contrast the re-entrant variant, whose override translates the nested
section through the translator instance that holds the rule instead of a
fresh rule-free one, runs out of any amount of fuel on an Ignition-typed
value. -/
theorem translate_terminates_once (fields : List (String × GoVal))
    (hone : fIgnCount fields = 1) :
    (∃ r, translateVal (2 * gsize (.strukt "Config" fields)) true
        (.strukt "Config" fields) = some (r, 1)) ∧
    (∀ (fuel : Nat) (ifields : List (String × GoVal)),
      translateValBad fuel true (.strukt "Ignition" ifields) = none) := by
  constructor
  · have hs := (translate_fuel_sufficient
        (2 * gsize (GoVal.strukt "Config" fields))).2.2.1
        (GoVal.strukt "Config" fields) (le_refl _)
    obtain ⟨⟨r, n⟩, hr⟩ := Option.isSome_iff_exists.1 hs
    have hn := (translate_count (2 * gsize (GoVal.strukt "Config" fields))).2.2.1
        (GoVal.strukt "Config" fields) r n hr
    have hic : ignCount (GoVal.strukt "Config" fields) = 1 := by
      have hcfg : ("Config" : String) ≠ "Ignition" := by decide
      simp [ignCount, hcfg, hone]
    refine ⟨r, ?_⟩
    rw [hr, hn, hic]
  · intro fuel ifields
    exact translateValBad_ignition_none fuel _ rfl

/-- C5 witness: the config with the single nested Ignition section
carrying version "3.0.0". -/
theorem translate_terminates_once_witness :
    (∃ r, translateVal (2 * gsize (.strukt "Config"
        [("ignition", .strukt "Ignition" [("version", .prim "3.0.0")])])) true
        (.strukt "Config"
          [("ignition", .strukt "Ignition" [("version", .prim "3.0.0")])]) =
        some (r, 1)) ∧
    (∀ (fuel : Nat) (ifields : List (String × GoVal)),
      translateValBad fuel true (.strukt "Ignition" ifields) = none) :=
  translate_terminates_once
    [("ignition", .strukt "Ignition" [("version", .prim "3.0.0")])]
    (by simp [fIgnCount, ignCount])

/-- C10: Translate is deterministic: two invocations on equal source
documents produce equal destination documents, and every invocation
completes; the function reads no state beyond its argument. -/
theorem translate_deterministic (a b : GoVal) (hab : a = b) :
    Translate a = Translate b ∧ (Translate a).isSome = true := by
  subst hab
  refine ⟨rfl, ?_⟩
  have hs := (translate_fuel_sufficient (2 * gsize a)).2.2.1 a (le_refl _)
  obtain ⟨⟨r, n⟩, hr⟩ := Option.isSome_iff_exists.1 hs
  simp [Translate, hr]

/-- C10 witness: determinism and completion on a concrete document. -/
theorem translate_deterministic_witness :
    Translate (.prim "cfg") = Translate (.prim "cfg") ∧
    (Translate (.prim "cfg")).isSome = true :=
  translate_deterministic (.prim "cfg") (.prim "cfg") rfl

end Ignition
